import Mathlib

/-!
Verification development for the spike-train numeric core of the
receptive-field-mapping toolkit (the `DataNeuron` pipeline: loader
validation, frequency inference, firing-rate estimation, gap filling,
downsampling, length padding).

The numeric core itself (`src/post_processing/dataneuron.py`) is not part
of the provided sources; only its unit tests are.  Every definition below
is therefore modelled from the specification's words, kept consistent with
the concrete expectations recorded in `src/tests/test_dataneuron.py`
(6 samples at 10 Hz, spikes 0.2 s apart, IFF = [0,0,0,5,5,5], downsample
lengths 3/6/1, padding semantics, and the error taxonomy).

Times and rates are modelled as rationals (`ℚ`), spike counts as naturals.
-/

namespace DN

/-- One sample of a TimeSeriesRecordSet: `(Time, Spike, IFF)`.
The pass-through columns are irrelevant to every claim and omitted. -/
structure Row where
  time : ℚ
  spike : ℕ
  iff : ℚ
  deriving DecidableEq, Repr

/-- Modelled from the spec: the single left-to-right pass of the
FiringRateEstimator (`calculate_iff`).  State: the previous spike's time
(if any) and the currently held IFF value.  At a spike the IFF becomes the
reciprocal of the time since the previous spike (0 at the very first
spike, where no interval exists yet); between spikes the value is held. -/
def iffPass (prev : Option ℚ) (cur : ℚ) : List Row → List ℚ
  | [] => []
  | r :: rest =>
    if 0 < r.spike then
      let v : ℚ := match prev with
        | none => 0
        | some p => 1 / (r.time - p)
      v :: iffPass (some r.time) v rest
    else
      cur :: iffPass prev cur rest

/-- The IFF column computed from the Time and Spike columns. -/
def iffColumn (df : List Row) : List ℚ := iffPass none 0 df

/-- Modelled from the spec: `DataNeuron.calculate_iff` — recompute the IFF
column from Time/Spike and store it, leaving Time and Spike untouched. -/
def calculate_iff (df : List Row) : List Row :=
  List.zipWith (fun r v => { r with iff := v }) df (iffColumn df)

/-- The declarative reading of §4.3: the IFF at sample `i` is `0` when the
prefix up to and including `i` contains fewer than two spike rows, and
otherwise the reciprocal of the interval between the last two spike times
of that prefix. -/
def specIffAt (df : List Row) (i : ℕ) : ℚ :=
  match (((df.take (i + 1)).filter (fun r => 0 < r.spike)).map Row.time).reverse with
  | a :: b :: _ => 1 / (a - b)
  | _ => 0

/-- The governing IFF value after a history of spike times: `0` with fewer
than two spikes seen, otherwise the reciprocal of the last interval. -/
def valOf (st : List ℚ) : ℚ :=
  match st.reverse with
  | a :: b :: _ => 1 / (a - b)
  | _ => 0

/-- The spike timestamps of a record set, in order. -/
def spikeTimes (l : List Row) : List ℚ :=
  (l.filter fun r => 0 < r.spike).map Row.time

/-- The spec's §4.3 example record: 6 samples at 10 Hz with exactly two
spikes whose timestamps differ by 0.2 s (stored IFF irrelevant here). -/
def scenarioDf : List Row :=
  [⟨0, 0, 0⟩, ⟨1/10, 1, 0⟩, ⟨2/10, 0, 0⟩, ⟨3/10, 1, 0⟩, ⟨4/10, 0, 0⟩,
   ⟨5/10, 0, 0⟩]

/-- Consecutive differences of a list (the inter-sample intervals). -/
def diffs : List ℚ → List ℚ
  | a :: b :: rest => (b - a) :: diffs (b :: rest)
  | _ => []

/-- The modal element of a list: the first element whose multiplicity is
not exceeded later (ties keep the earlier element). -/
def modal (l : List ℚ) : Option ℚ :=
  l.foldl
    (fun acc x =>
      match acc with
      | none => some x
      | some m => if l.count m < l.count x then some x else some m)
    none

/-- Modelled from the spec: FrequencyInference (`_get_frequency`) — the
reciprocal of the modal inter-sample interval of the Time column, rounded
to the nearest integer.  `none` when fewer than two samples exist. -/
def get_frequency (times : List ℚ) : Option ℤ :=
  (modal (diffs times)).map (fun d => round (1 / d))

/-- Whether a timestamp sits on the regular grid of the given frequency
(a non-negative integer multiple of `1/freq`). -/
def onGrid (freq : ℕ) (t : ℚ) : Bool :=
  (t * freq).den == 1 && 0 ≤ (t * freq).num

/-- The grid position of an on-grid timestamp. -/
def gridIndex (freq : ℕ) (t : ℚ) : ℕ :=
  (t * freq).num.toNat

/-- Modelled from the spec: GapFiller (`fill_samples`).  Given the event
rows (each retaining its true Time) and `original_freq`, rebuild every row
of the regular grid from time 0 up to the last event: kept rows retain
their Spike, inserted rows get Spike = 0, and the IFF column is re-derived
by the FiringRateEstimator (§4.3).  Fails (`none`) when the input is empty,
the frequency is 0, or the event rows are inconsistent with a single
regular grid (off-grid or non-increasing timestamps). -/
def fill_samples (events : List Row) (freq : ℕ) : Option (List Row) :=
  match events.getLast? with
  | none => none
  | some last =>
    if freq = 0 then none
    else if (events.all fun r => onGrid freq r.time) ∧
            List.Chain' (· < ·) (events.map Row.time) then
      let spk : ℕ → ℕ := fun k =>
        ((events.find? (fun r => gridIndex freq r.time == k)).map Row.spike).getD 0
      some (calculate_iff ((List.range (gridIndex freq last.time + 1)).map
        fun (k : ℕ) => ⟨(k : ℚ) / freq, spk k, 0⟩))
    else none

/-- Python-style numeric argument: either an `int` or a `float` value. -/
inductive PyNum where
  | int (n : ℤ)
  | float (q : ℚ)
  deriving DecidableEq, Repr

/-- The two fatal configuration-error species of §7. -/
inductive FreqError where
  | typeError
  | rangeError
  deriving DecidableEq, Repr

/-- Modelled from the spec: the loader's validation of `original_freq` —
a type error for a non-`int` argument, a range error for one `≤ 0`. -/
def validate_original_freq : PyNum → Except FreqError ℕ
  | .float _ => .error .typeError
  | .int n => if n ≤ 0 then .error .rangeError else .ok n.toNat

/-- Modelled from the spec: the Downsampler's validation of `target_freq`
against `original_freq` — a type error for a non-`int` argument, a range
error when `≤ 0` or greater than `original_freq`. -/
def validate_target_freq (original : ℕ) : PyNum → Except FreqError ℕ
  | .float _ => .error .typeError
  | .int n =>
    if n ≤ 0 then .error .rangeError
    else if (original : ℤ) < n then .error .rangeError
    else .ok n.toNat

/-- Start of downsampling window `k`: the first full-resolution sample
index belonging to it.  Windows are `original/target` samples wide, with
boundaries computed by elapsed time when the ratio is not an integer. -/
def windowStart (o t k : ℕ) : ℕ := k * o / t

/-- Number of downsampling windows covering `n` samples:
`⌈n / (o / t)⌉ = ⌈n·t / o⌉`. -/
def numWindows (o t n : ℕ) : ℕ := (n * t + o - 1) / o

/-- The full-resolution rows falling in window `k`. -/
def windowRows (df : List Row) (o t k : ℕ) : List Row :=
  (df.drop (windowStart o t k)).take (windowStart o t (k + 1) - windowStart o t k)

/-- Modelled from the spec: the Downsampler's aggregation.  Each window
yields one sample: Time is the window-end timestamp, Spike the aggregate
(sum) of the window's spikes, and IFF is re-derived by running the
FiringRateEstimator over the aggregated rows. -/
def downsample_core (df : List Row) (o t : ℕ) : List Row :=
  calculate_iff ((List.range (numWindows o t df.length)).map fun k =>
    let w := windowRows df o t k
    ⟨((w.getLast?).map Row.time).getD 0, (w.map Row.spike).sum, 0⟩)

/-- Modelled from the spec: LengthPadder (`_fill_downsample_length`) on the
downsampled record set — append the deficit as rows with Spike = 0 and IFF
held from the last real row, Time continuing the regular grid of the
downsampled frequency `t`. -/
def fill_downsample_length_core (df : List Row) (t : ℕ) (targetLength : ℕ) :
    List Row :=
  match df.getLast? with
  | none => df
  | some last =>
    df ++ (List.range (targetLength - df.length)).map fun j =>
      ⟨last.time + ((j : ℚ) + 1) / t, 0, last.iff⟩

/-- The mutable object of the pipeline: the full-resolution record set, the
immutable `original_freq`, and the derived downsampled set (absent until a
downsample operation runs). -/
structure DataNeuron where
  df : List Row
  original_freq : ℕ
  downsampled_df : Option (List Row)
  deriving DecidableEq, Repr

/-- Modelled from the spec: TimeSeriesLoader — validate `original_freq`,
populate the full-resolution record set, leave the downsampled derivative
absent. -/
def load (df : List Row) (freq : PyNum) : Except FreqError DataNeuron :=
  match validate_original_freq freq with
  | .error e => .error e
  | .ok f => .ok ⟨df, f, none⟩

/-- Modelled from the spec: `DataNeuron.downsample` — validate
`target_freq`, aggregate, replace (not merge) `downsampled_df`, and return
the result. -/
def downsample (dn : DataNeuron) (target : PyNum) :
    Except FreqError (List Row × DataNeuron) :=
  match validate_target_freq dn.original_freq target with
  | .error e => .error e
  | .ok t =>
    let out := downsample_core dn.df dn.original_freq t
    .ok (out, { dn with downsampled_df := some out })

/-- The six-sample 10 Hz record set of the unit tests: spikes 0.2 s apart
at 0.1 s, 0.3 s and 0.5 s, with the IFF column the estimator derives. -/
def mockDf : List Row :=
  [⟨0, 0, 0⟩, ⟨1/10, 1, 0⟩, ⟨2/10, 0, 0⟩,
   ⟨3/10, 1, 5⟩, ⟨4/10, 0, 5⟩, ⟨5/10, 1, 5⟩]

/-- The canonical full-resolution record set at frequency `f` determined by
a list of spike counts: sample `i` at time `i / f`, with the IFF column the
estimator derives. -/
def gridRows (f : ℕ) (spikes : List ℕ) : List Row :=
  calculate_iff ((List.range spikes.length).map fun (i : ℕ) =>
    ⟨(i : ℚ) / f, spikes.getD i 0, 0⟩)

/-! ## Basic lemmas about the estimator pass -/

theorem iffPass_length (prev : Option ℚ) (cur : ℚ) (df : List Row) :
    (iffPass prev cur df).length = df.length := by
  induction df generalizing prev cur with
  | nil => rfl
  | cons r rest ih =>
    by_cases h : 0 < r.spike <;> simp [iffPass, h, ih]

theorem iffColumn_length (df : List Row) : (iffColumn df).length = df.length :=
  iffPass_length none 0 df

/-- The Time/Spike projection of a row; the estimator reads nothing else. -/
def projTS (r : Row) : ℚ × ℕ := (r.time, r.spike)

theorem iffPass_congr_projTS (prev : Option ℚ) (cur : ℚ) :
    ∀ l₁ l₂ : List Row, l₁.map projTS = l₂.map projTS →
      iffPass prev cur l₁ = iffPass prev cur l₂ := by
  intro l₁
  induction l₁ generalizing prev cur with
  | nil =>
    intro l₂ h
    cases l₂ with
    | nil => rfl
    | cons b t => simp at h
  | cons a t₁ ih =>
    intro l₂ h
    cases l₂ with
    | nil => simp at h
    | cons b t₂ =>
      simp only [List.map_cons, List.cons.injEq] at h
      obtain ⟨hab, ht⟩ := h
      have htime : a.time = b.time := congrArg Prod.fst hab
      have hspike : a.spike = b.spike := congrArg Prod.snd hab
      by_cases hs : 0 < a.spike
      · have hs' : 0 < b.spike := hspike ▸ hs
        simp only [iffPass, if_pos hs, if_pos hs', htime]
        exact congrArg _ (ih _ _ _ ht)
      · have hs' : ¬ 0 < b.spike := hspike ▸ hs
        simp only [iffPass, if_neg hs, if_neg hs']
        exact congrArg _ (ih _ _ _ ht)

theorem map_projTS_zipWith_set (df : List Row) :
    ∀ v : List ℚ, df.length ≤ v.length →
      (List.zipWith (fun r x => { r with iff := x }) df v).map projTS = df.map projTS := by
  induction df with
  | nil => intro v _; simp
  | cons a t ih =>
    intro v hv
    cases v with
    | nil => simp at hv
    | cons x xs =>
      simp only [List.zipWith_cons_cons, List.map_cons, List.cons.injEq]
      exact ⟨rfl, ih xs (Nat.le_of_succ_le_succ hv)⟩

theorem map_projTS_calculate_iff (df : List Row) :
    (calculate_iff df).map projTS = df.map projTS :=
  map_projTS_zipWith_set df (iffColumn df) (by rw [iffColumn_length])

theorem iffColumn_congr_projTS (l₁ l₂ : List Row)
    (h : l₁.map projTS = l₂.map projTS) : iffColumn l₁ = iffColumn l₂ :=
  iffPass_congr_projTS none 0 l₁ l₂ h

theorem iffColumn_calculate_iff (df : List Row) :
    iffColumn (calculate_iff df) = iffColumn df :=
  iffColumn_congr_projTS _ _ (map_projTS_calculate_iff df)

theorem zipWith_set_congr_projTS :
    ∀ (l₁ l₂ : List Row) (v : List ℚ), l₁.map projTS = l₂.map projTS →
      List.zipWith (fun r x => { r with iff := x }) l₁ v =
        List.zipWith (fun r x => { r with iff := x }) l₂ v := by
  intro l₁
  induction l₁ with
  | nil =>
    intro l₂ v h
    cases l₂ with
    | nil => rfl
    | cons b t => simp at h
  | cons a t₁ ih =>
    intro l₂ v h
    cases l₂ with
    | nil => simp at h
    | cons b t₂ =>
      cases v with
      | nil => rfl
      | cons x xs =>
        simp only [List.map_cons, List.cons.injEq] at h
        obtain ⟨hab, ht⟩ := h
        have htime : a.time = b.time := congrArg Prod.fst hab
        have hspike : a.spike = b.spike := congrArg Prod.snd hab
        simp only [List.zipWith_cons_cons, List.cons.injEq]
        constructor
        · cases a; cases b
          simp_all
        · exact ih t₂ xs ht

/-- C5. The FiringRateEstimator is idempotent under drop-and-recompute:
recomputing the IFF column of a record set whose IFF column it already
produced reproduces that record set (hence that column) exactly. -/
theorem calculate_iff_idempotent (df : List Row) :
    calculate_iff (calculate_iff df) = calculate_iff df := by
  have h : calculate_iff (calculate_iff df) =
      List.zipWith (fun r x => { r with iff := x }) (calculate_iff df) (iffColumn df) := by
    rw [show calculate_iff (calculate_iff df) =
        List.zipWith (fun r x => { r with iff := x }) (calculate_iff df)
          (iffColumn (calculate_iff df)) from rfl, iffColumn_calculate_iff]
  rw [h, zipWith_set_congr_projTS (calculate_iff df) df (iffColumn df)
    (map_projTS_calculate_iff df)]
  rfl

/-- C4. The error taxonomy of the frequency arguments: loading rejects a
non-integer `original_freq` with a type error and a non-positive one with a
range error; `downsample` rejects a non-integer `target_freq` with a type
error and one that is non-positive or exceeds `original_freq` with a range
error; a positive integer `target_freq` within range is accepted. -/
theorem freq_validation_taxonomy (df : List Row) (dn : DataNeuron) :
    (∀ q : ℚ, load df (.float q) = .error .typeError) ∧
    (∀ n : ℤ, n ≤ 0 → load df (.int n) = .error .rangeError) ∧
    (∀ n : ℤ, 0 < n → load df (.int n) = .ok ⟨df, n.toNat, none⟩) ∧
    (∀ q : ℚ, downsample dn (.float q) = .error .typeError) ∧
    (∀ n : ℤ, n ≤ 0 → downsample dn (.int n) = .error .rangeError) ∧
    (∀ n : ℤ, (dn.original_freq : ℤ) < n → downsample dn (.int n) = .error .rangeError) ∧
    (∀ n : ℤ, 0 < n → n ≤ (dn.original_freq : ℤ) →
      ∃ out, downsample dn (.int n) = .ok (out, { dn with downsampled_df := some out })) := by
  refine ⟨fun q => rfl, ?_, ?_, fun q => rfl, ?_, ?_, ?_⟩
  · intro n hn
    simp [load, validate_original_freq, if_pos hn]
  · intro n hn
    simp [load, validate_original_freq, Int.not_le.mpr hn]
  · intro n hn
    simp [downsample, validate_target_freq, if_pos hn]
  · intro n hn
    have h1 : ¬ n ≤ 0 := Int.not_le.mpr (lt_of_le_of_lt (Int.ofNat_nonneg _) hn)
    simp [downsample, validate_target_freq, h1, if_pos hn]
  · intro n h0 hle
    have h1 : ¬ n ≤ 0 := Int.not_le.mpr h0
    have h2 : ¬ (dn.original_freq : ℤ) < n := Int.not_lt.mpr hle
    refine ⟨downsample_core dn.df dn.original_freq n.toNat, ?_⟩
    simp [downsample, validate_target_freq, h1, h2]

/-- C4 witness: the concrete invalid/valid arguments of the unit tests. -/
theorem freq_validation_taxonomy_witness :
    load [] (.float (5/2)) = .error .typeError ∧
    load [] (.int (-10)) = .error .rangeError ∧
    downsample ⟨mockDf, 10, none⟩ (.float (5/2)) = .error .typeError ∧
    downsample ⟨mockDf, 10, none⟩ (.int 0) = .error .rangeError ∧
    downsample ⟨mockDf, 10, none⟩ (.int 20) = .error .rangeError := by
  have h := freq_validation_taxonomy [] ⟨mockDf, 10, none⟩
  exact ⟨h.1 (5/2), h.2.1 (-10) (by norm_num),
    (freq_validation_taxonomy [] ⟨mockDf, 10, none⟩).2.2.2.1 (5/2),
    (freq_validation_taxonomy [] ⟨mockDf, 10, none⟩).2.2.2.2.1 0 le_rfl,
    (freq_validation_taxonomy [] ⟨mockDf, 10, none⟩).2.2.2.2.2.1 20 (by norm_num)⟩

/-! ## LengthPadder -/

theorem fill_core_eq (df : List Row) (t n : ℕ) (h : df ≠ []) :
    fill_downsample_length_core df t n =
      df ++ (List.range (n - df.length)).map (fun (j : ℕ) =>
        ⟨(df.getLast h).time + ((j : ℚ) + 1) / t, 0, (df.getLast h).iff⟩) := by
  unfold fill_downsample_length_core
  rw [List.getLast?_eq_getLast df h]

theorem fill_core_length (df : List Row) (t n : ℕ) (h : df ≠ [])
    (hn : df.length ≤ n) : (fill_downsample_length_core df t n).length = n := by
  rw [fill_core_eq df t n h]
  simp only [List.length_append, List.length_map, List.length_range]
  omega

/-- C7. LengthPadder on a non-empty downsampled set with
`target_length ≥ current length`: the result is the input followed by the
deficit of held-extrapolation rows (Spike = 0, IFF = last real IFF, Time
continuing the regular grid of step `1/t`); its length is exactly
`target_length`; and `target_length = current length` is a no-op. -/
theorem length_padder_spec (df : List Row) (t n : ℕ) (h : df ≠ [])
    (hn : df.length ≤ n) :
    fill_downsample_length_core df t n =
      df ++ (List.range (n - df.length)).map (fun (j : ℕ) =>
        ⟨(df.getLast h).time + ((j : ℚ) + 1) / t, 0, (df.getLast h).iff⟩) ∧
    (fill_downsample_length_core df t n).length = n ∧
    (n = df.length → fill_downsample_length_core df t n = df) ∧
    ∀ r ∈ (fill_downsample_length_core df t n).drop df.length,
      r.spike = 0 ∧ r.iff = (df.getLast h).iff := by
  have he := fill_core_eq df t n h
  refine ⟨he, fill_core_length df t n h hn, ?_, ?_⟩
  · intro hnn
    rw [he, hnn]
    simp
  · intro r hr
    rw [he, List.drop_left] at hr
    simp only [List.mem_map] at hr
    obtain ⟨j, _, rfl⟩ := hr
    exact ⟨rfl, rfl⟩

/-- C7 witness: padding the 3-row downsample of the test record to 10 rows
is the test's `_fill_downsample_length(target_length=10)` call. -/
theorem length_padder_spec_witness :
    (fill_downsample_length_core (downsample_core mockDf 10 5) 5 10).length = 10 ∧
    ∀ r ∈ (fill_downsample_length_core (downsample_core mockDf 10 5) 5 10).drop
        (downsample_core mockDf 10 5).length,
      r.spike = 0 ∧ r.iff = ((downsample_core mockDf 10 5).getLast (by decide)).iff :=
  ⟨(length_padder_spec (downsample_core mockDf 10 5) 5 10 (by decide)
      (by decide)).2.1,
   (length_padder_spec (downsample_core mockDf 10 5) 5 10 (by decide)
      (by decide)).2.2.2⟩

/-! ## FrequencyInference -/

theorem diffs_append (l : List ℚ) (a x : ℚ) (h : l.getLast? = some a) :
    diffs (l ++ [x]) = diffs l ++ [x - a] := by
  induction l with
  | nil => simp at h
  | cons b t ih =>
    cases t with
    | nil =>
      simp only [List.getLast?_singleton, Option.some.injEq] at h
      subst h
      simp [diffs]
    | cons c t' =>
      have h' : (c :: t').getLast? = some a := by
        rwa [List.getLast?_cons_cons] at h
      have := ih h'
      simp only [List.cons_append] at this ⊢
      rw [show diffs (b :: c :: (t' ++ [x])) = (c - b) :: diffs (c :: (t' ++ [x]))
          from rfl]
      rw [show diffs (b :: c :: t') = (c - b) :: diffs (c :: t') from rfl]
      rw [← List.cons_append]
      exact congrArg _ this

theorem diffs_grid (f : ℕ) :
    ∀ n : ℕ, diffs ((List.range (n + 1)).map fun (i : ℕ) => (i : ℚ) / f) =
      List.replicate n (1 / (f : ℚ)) := by
  intro n
  induction n with
  | zero => rfl
  | succ m ih =>
    have hL : ((List.range (m + 1)).map fun (i : ℕ) => (i : ℚ) / f).getLast? =
        some ((m : ℚ) / f) := by
      rw [List.range_succ, List.map_append]
      simp
    rw [List.range_succ, List.map_append, List.map_singleton,
      diffs_append _ _ _ hL, ih]
    have hstep : ((m + 1 : ℕ) : ℚ) / f - (m : ℚ) / f = 1 / (f : ℚ) := by
      rw [div_sub_div_same]
      push_cast
      ring_nf
    rw [hstep, List.replicate_succ']

theorem foldl_modal_const (c : ℚ → ℕ) (d : ℚ) :
    ∀ l : List ℚ, (∀ x ∈ l, x = d) →
      l.foldl (fun acc x =>
        match acc with
        | none => some x
        | some m => if c m < c x then some x else some m) (some d) = some d := by
  intro l
  induction l with
  | nil => intro _; rfl
  | cons x t ih =>
    intro h
    have hx : x = d := h x (List.mem_cons_self x t)
    subst hx
    simp only [List.foldl_cons, lt_irrefl, if_neg]
    exact ih fun y hy => h y (List.mem_cons_of_mem _ hy)

theorem modal_const (l : List ℚ) (d : ℚ) (hne : l ≠ []) (h : ∀ x ∈ l, x = d) :
    modal l = some d := by
  cases l with
  | nil => exact absurd rfl hne
  | cons x t =>
    have hx : x = d := h x (List.mem_cons_self x t)
    subst hx
    unfold modal
    simp only [List.foldl_cons]
    exact foldl_modal_const _ x t fun y hy => h y (List.mem_cons_of_mem _ hy)

/-- C8. FrequencyInference is the reciprocal of the modal inter-sample
interval rounded to the nearest integer; on the regular grid of a record
set loaded at frequency `f` (at least two samples) it returns exactly `f`. -/
theorem get_frequency_grid (f n : ℕ) (hf : 0 < f) (hn : 2 ≤ n) :
    get_frequency ((List.range n).map fun (i : ℕ) => (i : ℚ) / f) =
      some (f : ℤ) := by
  obtain ⟨m, rfl⟩ : ∃ m, n = m + 1 + 1 := ⟨n - 2, by omega⟩
  unfold get_frequency
  rw [diffs_grid f (m + 1),
    modal_const _ (1 / (f : ℚ)) (by simp)
      (fun x hx => List.eq_of_mem_replicate hx)]
  simp only [Option.map_some']
  congr 1
  rw [one_div_one_div]
  exact round_natCast f

/-- C8 witness: the Time column of the test record at 10 Hz yields 10. -/
theorem get_frequency_grid_witness :
    get_frequency (mockDf.map Row.time) = some (10 : ℤ) := by
  have h : mockDf.map Row.time =
      (List.range 6).map fun (i : ℕ) => (i : ℚ) / 10 := by
    norm_num [mockDf, List.range_succ]
  rw [h]
  exact get_frequency_grid 10 6 (by norm_num) (by norm_num)

/-! ## Downsampler -/

theorem calculate_iff_length (df : List Row) :
    (calculate_iff df).length = df.length := by
  unfold calculate_iff
  rw [List.length_zipWith, iffColumn_length, Nat.min_self]

theorem downsample_core_length (df : List Row) (o t : ℕ) :
    (downsample_core df o t).length = numWindows o t df.length := by
  unfold downsample_core
  rw [calculate_iff_length, List.length_map, List.length_range]

theorem nat_ceilDiv_eq_ceil (m o : ℕ) (ho : 0 < o) :
    ((m + o - 1) / o : ℕ) = ⌈(m : ℚ) / (o : ℚ)⌉₊ := by
  rcases Nat.eq_zero_or_pos m with hm | hm
  · subst hm
    rw [Nat.zero_add, Nat.div_eq_of_lt (by omega)]
    simp
  · have hq1 : (m + o - 1) / o = (m - 1) / o + 1 := by
      rw [show m + o - 1 = (m - 1) + o from by omega, Nat.add_div_right _ ho]
    have hoQ : (0 : ℚ) < (o : ℚ) := by exact_mod_cast ho
    symm
    rw [hq1, Nat.ceil_eq_iff (Nat.succ_ne_zero _)]
    constructor
    · rw [Nat.succ_sub_one]
      rw [lt_div_iff hoQ]
      have hnat : (m - 1) / o * o < m := by
        have h1 : (m - 1) / o * o ≤ m - 1 := Nat.div_mul_le_self _ _
        omega
      exact_mod_cast hnat
    · rw [div_le_iff hoQ]
      have hnat : m ≤ ((m - 1) / o + 1) * o := by
        have h1 : m - 1 < (m - 1) / o * o + o := Nat.lt_div_mul_add ho
        have h2 : ((m - 1) / o + 1) * o = (m - 1) / o * o + o := by ring
        rw [h2]
        calc m = m - 1 + 1 := (Nat.succ_pred_eq_of_pos hm).symm
          _ ≤ (m - 1) / o * o + o := Nat.succ_le_of_lt h1
      exact_mod_cast hnat

theorem numWindows_eq_ceil (o t n : ℕ) (ho : 0 < o) (ht : 0 < t) :
    numWindows o t n = ⌈(n : ℚ) / ((o : ℚ) / (t : ℚ))⌉₊ := by
  unfold numWindows
  rw [div_div_eq_mul_div]
  have hcast : (n : ℚ) * (t : ℚ) = ((n * t : ℕ) : ℚ) := by push_cast; ring
  rw [hcast]
  exact nat_ceilDiv_eq_ceil (n * t) o ho

/-- C3. The Downsampler's output length is `⌈n / (original_freq /
target_freq)⌉` (a partial final window included); on the 6-sample record at
10 Hz the target frequencies 5, 10 and 1 give lengths 3, 6 and 1. -/
theorem downsample_length_spec (df : List Row) (o t : ℕ) (ho : 0 < o)
    (ht : 0 < t) (hto : t ≤ o) :
    (downsample_core df o t).length = ⌈(df.length : ℚ) / ((o : ℚ) / (t : ℚ))⌉₊ ∧
    (downsample_core mockDf 10 5).length = 3 ∧
    (downsample_core mockDf 10 10).length = 6 ∧
    (downsample_core mockDf 10 1).length = 1 := by
  refine ⟨?_, ?_, ?_, ?_⟩
  · rw [downsample_core_length, numWindows_eq_ceil o t df.length ho ht]
  all_goals
    rw [downsample_core_length]
    norm_num [numWindows, mockDf]

/-- C3 witness: the test record itself at target frequency 5. -/
theorem downsample_length_spec_witness :
    (downsample_core mockDf 10 5).length =
      ⌈(mockDf.length : ℚ) / ((10 : ℚ) / (5 : ℚ))⌉₊ :=
  (downsample_length_spec mockDf 10 5 (by norm_num) (by norm_num)
    (by norm_num)).1

theorem downsample_core_self (df : List Row) (o : ℕ) (ho : 0 < o)
    (hiff : calculate_iff df = df) : downsample_core df o o = df := by
  have hnw : numWindows o o df.length = df.length := by
    unfold numWindows
    have hrw : df.length * o + o - 1 = o * df.length + (o - 1) := by
      rw [Nat.mul_comm df.length o]
      omega
    rw [hrw, Nat.mul_add_div ho, Nat.div_eq_of_lt (by omega), Nat.add_zero]
  have hws : ∀ k, windowStart o o k = k := fun k => by
    unfold windowStart
    exact Nat.mul_div_cancel k ho
  have hwr : ∀ k, (hk : k < df.length) → windowRows df o o k = [df[k]] := by
    intro k hk
    unfold windowRows
    rw [hws, hws, show k + 1 - k = 1 from by omega,
      List.drop_eq_getElem_cons hk]
    rfl
  have hbase : (List.range (numWindows o o df.length)).map (fun k =>
      let w := windowRows df o o k
      (⟨((w.getLast?).map Row.time).getD 0, (w.map Row.spike).sum, 0⟩ : Row)) =
      df.map (fun r => ⟨r.time, r.spike, 0⟩) := by
    apply List.ext_getElem
    · simp [hnw]
    · intro i h1 h2
      simp only [List.getElem_map, List.getElem_range]
      have hi : i < df.length := by
        simpa [hnw] using h1
      rw [hwr i hi]
      simp
  unfold downsample_core
  rw [hbase]
  have hproj : (df.map (fun r => (⟨r.time, r.spike, 0⟩ : Row))).map projTS =
      df.map projTS := by
    rw [List.map_map]
    rfl
  calc calculate_iff (df.map (fun r => (⟨r.time, r.spike, 0⟩ : Row)))
      = List.zipWith (fun r x => { r with iff := x })
          (df.map (fun r => (⟨r.time, r.spike, 0⟩ : Row)))
          (iffColumn (df.map (fun r => (⟨r.time, r.spike, 0⟩ : Row)))) := rfl
    _ = List.zipWith (fun r x => { r with iff := x })
          (df.map (fun r => (⟨r.time, r.spike, 0⟩ : Row))) (iffColumn df) := by
        rw [iffColumn_congr_projTS _ df hproj]
    _ = List.zipWith (fun r x => { r with iff := x }) df (iffColumn df) :=
        zipWith_set_congr_projTS _ df _ hproj
    _ = calculate_iff df := rfl
    _ = df := hiff

/-- C6. Downsampling at `target_freq = original_freq` is the identity
case: it succeeds and returns the full-resolution record set itself
(hence its length, Spike and IFF content), stored as the new
`downsampled_df`. -/
theorem downsample_identity (dn : DataNeuron) (o : ℕ) (ho : 0 < o)
    (hfreq : dn.original_freq = o) (hiff : calculate_iff dn.df = dn.df) :
    downsample dn (.int (o : ℤ)) =
      .ok (dn.df, { dn with downsampled_df := some dn.df }) := by
  have hv : validate_target_freq dn.original_freq (.int (o : ℤ)) = .ok o := by
    simp only [validate_target_freq, hfreq]
    rw [if_neg (by omega : ¬ ((o : ℤ) ≤ 0)),
      if_neg (by omega : ¬ ((o : ℤ) < (o : ℤ)))]
    simp
  simp only [downsample, hv]
  rw [hfreq, downsample_core_self dn.df o ho hiff]

/-- C6 witness: downsampling the test record at its own frequency. -/
theorem downsample_identity_witness :
    downsample ⟨mockDf, 10, none⟩ (.int (10 : ℤ)) =
      .ok (mockDf, ⟨mockDf, 10, some mockDf⟩) :=
  downsample_identity ⟨mockDf, 10, none⟩ 10 (by norm_num) rfl
    (by norm_num [calculate_iff, iffColumn, iffPass, mockDf])

/-! ## Record-set lifecycle state -/

/-- C9. After a successful load the full-resolution record set is
populated and `downsampled_df` is absent; a successful downsample stores
its result as the new `downsampled_df`, leaves the full-resolution set and
`original_freq` untouched, and produces the same replacement regardless of
any previously stored downsampled set (replace, not merge; independent of
the full-resolution set). -/
theorem state_lifecycle (df : List Row) (f : PyNum) (dn dnl : DataNeuron)
    (t : PyNum) (out : List Row) (dn' : DataNeuron) :
    (load df f = .ok dnl → dnl.df = df ∧ dnl.downsampled_df = none) ∧
    (downsample dn t = .ok (out, dn') →
      dn'.downsampled_df = some out ∧ dn'.df = dn.df ∧
      dn'.original_freq = dn.original_freq ∧
      ∀ prev, downsample ⟨dn.df, dn.original_freq, prev⟩ t =
        .ok (out, ⟨dn.df, dn.original_freq, some out⟩)) := by
  constructor
  · intro h
    unfold load at h
    cases hv : validate_original_freq f with
    | error e => rw [hv] at h; cases h
    | ok fv =>
      rw [hv] at h
      cases h
      exact ⟨rfl, rfl⟩
  · intro h
    unfold downsample at h
    cases hv : validate_target_freq dn.original_freq t with
    | error e => rw [hv] at h; cases h
    | ok tv =>
      rw [hv] at h
      simp only [Except.ok.injEq, Prod.mk.injEq] at h
      obtain ⟨hout, hdn'⟩ := h
      subst hout
      subst hdn'
      refine ⟨rfl, rfl, rfl, fun prev => ?_⟩
      unfold downsample
      have hv' : validate_target_freq
          (DataNeuron.mk dn.df dn.original_freq prev).original_freq t =
          .ok tv := hv
      rw [hv']

/-- C9 witness: loading the test record then downsampling over a stale
stored derivative replaces it with the fresh result. -/
theorem state_lifecycle_witness :
    ((⟨mockDf, 10, none⟩ : DataNeuron).df = mockDf ∧
      (⟨mockDf, 10, none⟩ : DataNeuron).downsampled_df = none) ∧
    downsample ⟨mockDf, 10, some []⟩ (.int 5) =
      .ok (downsample_core mockDf 10 5,
        ⟨mockDf, 10, some (downsample_core mockDf 10 5)⟩) := by
  have h := state_lifecycle mockDf (.int 10) ⟨mockDf, 10, none⟩
    ⟨mockDf, 10, none⟩ (.int 5) (downsample_core mockDf 10 5)
    ⟨mockDf, 10, some (downsample_core mockDf 10 5)⟩
  have hload : load mockDf (.int 10) = .ok ⟨mockDf, 10, none⟩ := by
    norm_num [load, validate_original_freq]
    rfl
  have hds : downsample ⟨mockDf, 10, none⟩ (.int 5) =
      .ok (downsample_core mockDf 10 5,
        ⟨mockDf, 10, some (downsample_core mockDf 10 5)⟩) := by
    norm_num [downsample, validate_target_freq]
    rfl
  exact ⟨h.1 hload, (h.2 hds).2.2.2 (some [])⟩

/-- C10. `downsample` and `_fill_downsample_length` return the resulting
record set (not only mutating internal state): a valid downsample returns
the aggregated set — of the predicted window count — and stores the very
same value; the padder returns the padded set of exactly `target_length`
rows. -/
theorem operations_return_results (dn : DataNeuron) (tv : ℕ)
    (df2 : List Row) (tf n : ℕ) :
    (0 < tv → tv ≤ dn.original_freq →
      downsample dn (.int (tv : ℤ)) =
        .ok (downsample_core dn.df dn.original_freq tv,
          ⟨dn.df, dn.original_freq,
            some (downsample_core dn.df dn.original_freq tv)⟩) ∧
      (downsample_core dn.df dn.original_freq tv).length =
        numWindows dn.original_freq tv dn.df.length) ∧
    (df2 ≠ [] → df2.length ≤ n →
      (fill_downsample_length_core df2 tf n).length = n) := by
  constructor
  · intro h0 hle
    have hv : validate_target_freq dn.original_freq (.int (tv : ℤ)) =
        .ok tv := by
      simp only [validate_target_freq]
      rw [if_neg (by omega : ¬ ((tv : ℤ) ≤ 0)),
        if_neg (by exact_mod_cast Nat.not_lt.mpr hle :
          ¬ ((dn.original_freq : ℤ) < (tv : ℤ)))]
      simp
    constructor
    · simp only [downsample, hv]
    · exact downsample_core_length dn.df dn.original_freq tv
  · intro hne hlen
    exact fill_core_length df2 tf n hne hlen

/-- C10 witness: the test's `downsample(5)` and padder-to-10 calls. -/
theorem operations_return_results_witness :
    downsample ⟨mockDf, 10, none⟩ (.int (5 : ℤ)) =
      .ok (downsample_core mockDf 10 5,
        ⟨mockDf, 10, some (downsample_core mockDf 10 5)⟩) ∧
    (fill_downsample_length_core (downsample_core mockDf 10 5) 5 10).length
      = 10 := by
  have h := operations_return_results ⟨mockDf, 10, none⟩ 5
    (downsample_core mockDf 10 5) 5 10
  exact ⟨(h.1 (by norm_num) (by norm_num)).1,
    h.2 (by decide) (by decide)⟩

/-! ## FiringRateEstimator against the declarative §4.3 rule -/

theorem specIffAt_eq (df : List Row) (i : ℕ) :
    specIffAt df i = valOf (spikeTimes (df.take (i + 1))) := rfl

theorem spikeTimes_append_spike (pre : List Row) (r : Row) (h : 0 < r.spike) :
    spikeTimes (pre ++ [r]) = spikeTimes pre ++ [r.time] := by
  simp [spikeTimes, List.filter_append, h]

theorem spikeTimes_append_nospike (pre : List Row) (r : Row)
    (h : ¬ 0 < r.spike) : spikeTimes (pre ++ [r]) = spikeTimes pre := by
  simp [spikeTimes, List.filter_append, h]

theorem valOf_concat (st : List ℚ) (x : ℚ) :
    valOf (st ++ [x]) =
      match st.getLast? with
      | none => (0 : ℚ)
      | some p => 1 / (x - p) := by
  unfold valOf
  rw [List.reverse_append]
  rw [← List.head?_reverse]
  cases st.reverse with
  | nil => rfl
  | cons p rest => rfl

theorem take_append_succ (pre : List Row) (r : Row) (rest : List Row) :
    (pre ++ r :: rest).take (pre.length + 1) = pre ++ [r] := by
  rw [List.take_append_eq_append_take, List.take_of_length_le (by omega),
    Nat.add_sub_cancel_left]
  rfl

theorem iffPass_spec (rest : List Row) : ∀ pre : List Row,
    iffPass (spikeTimes pre).getLast? (valOf (spikeTimes pre)) rest =
      (List.range rest.length).map
        fun j => specIffAt (pre ++ rest) (pre.length + j) := by
  induction rest with
  | nil => intro pre; rfl
  | cons r rest' ih =>
    intro pre
    have htail : ∀ j ∈ List.range rest'.length,
        specIffAt ((pre ++ [r]) ++ rest') ((pre ++ [r]).length + j) =
          specIffAt (pre ++ r :: rest') (pre.length + Nat.succ j) := by
      intro j _
      rw [List.append_assoc, List.singleton_append, List.length_append,
        List.length_singleton]
      exact congrArg _ (by omega)
    have hhead : specIffAt (pre ++ r :: rest') (pre.length + 0) =
        valOf (spikeTimes (pre ++ [r])) := by
      rw [Nat.add_zero, specIffAt_eq, take_append_succ]
    by_cases hs : 0 < r.spike
    · have hst := spikeTimes_append_spike pre r hs
      have hlast : (spikeTimes (pre ++ [r])).getLast? = some r.time := by
        rw [hst]
        exact List.getLast?_concat _
      have ih' := ih (pre ++ [r])
      rw [List.length_cons, List.range_succ_eq_map, List.map_cons,
        List.map_map]
      cases hlp : (spikeTimes pre).getLast? with
      | none =>
        have hv : valOf (spikeTimes (pre ++ [r])) = 0 := by
          rw [hst, valOf_concat, hlp]
        rw [hlast, hv] at ih'
        simp only [iffPass, if_pos hs, hlp]
        rw [ih', List.map_congr_left htail, hhead, hv]
        rfl
      | some p =>
        have hv : valOf (spikeTimes (pre ++ [r])) = 1 / (r.time - p) := by
          rw [hst, valOf_concat, hlp]
        rw [hlast, hv] at ih'
        simp only [iffPass, if_pos hs, hlp]
        rw [ih', List.map_congr_left htail, hhead, hv]
        rfl
    · have hst := spikeTimes_append_nospike pre r hs
      have ih' := ih (pre ++ [r])
      rw [hst] at ih'
      simp only [iffPass, if_neg hs]
      rw [List.length_cons, List.range_succ_eq_map, List.map_cons,
        List.map_map, ih', List.map_congr_left htail, hhead, hst]
      rfl

/-- C2. The estimator's single left-to-right pass realises the declarative
rule: at every index the IFF is 0 before the second spike of the prefix
and otherwise the reciprocal of the interval between the prefix's last two
spikes — i.e. 0 before (and at) the first spike, `1/Δt` at and after each
subsequent spike, held until the next spike; on the 6-sample 10 Hz record
with exactly two spikes 0.2 s apart the column is `[0,0,0,5,5,5]`. -/
theorem iff_pass_matches_spec :
    (∀ df : List Row,
      iffColumn df = (List.range df.length).map fun i => specIffAt df i) ∧
    iffColumn scenarioDf = [0, 0, 0, 5, 5, 5] := by
  constructor
  · intro df
    have h := iffPass_spec df []
    simpa using h
  · norm_num [iffColumn, iffPass, scenarioDf]

/-! ## GapFiller -/

theorem filter_getLast?_of_last (p : Row → Bool) :
    ∀ (l : List Row) (h : l ≠ []), p (l.getLast h) = true →
      (l.filter p).getLast? = some (l.getLast h) := by
  intro l
  induction l with
  | nil => intro h; exact absurd rfl h
  | cons a t ih =>
    intro h hp
    cases t with
    | nil =>
      simp only [List.getLast_singleton] at hp
      simp [List.filter_cons, hp]
    | cons b t' =>
      have hne : b :: t' ≠ [] := List.cons_ne_nil b t'
      rw [List.getLast_cons hne] at hp ⊢
      have htail := ih hne hp
      rw [List.filter_cons]
      by_cases hpa : p a
      · rw [if_pos hpa]
        obtain ⟨x, xs, hxs⟩ : ∃ x xs, (b :: t').filter p = x :: xs := by
          cases hfe : (b :: t').filter p with
          | nil => rw [hfe] at htail; cases htail
          | cons x xs => exact ⟨x, xs, rfl⟩
        rw [hxs, List.getLast?_cons_cons, ← hxs]
        exact htail
      · rw [if_neg hpa]
        exact htail

theorem find?_eq_some_unique (p : Row → Bool) :
    ∀ (l : List Row) (x : Row), x ∈ l → p x = true →
      (∀ y ∈ l, p y = true → y = x) → l.find? p = some x := by
  intro l
  induction l with
  | nil => intro x hx; exact absurd hx (List.not_mem_nil x)
  | cons a t ih =>
    intro x hx hpx huniq
    by_cases hpa : p a
    · have hax : a = x := huniq a (List.mem_cons_self a t) hpa
      rw [List.find?_cons_of_pos _ hpa, hax]
    · rw [List.find?_cons_of_neg _ hpa]
      have hxt : x ∈ t := by
        cases List.mem_cons.mp hx with
        | inl heq => exact absurd (heq ▸ hpx) (by simpa [heq] using hpa)
        | inr ht => exact ht
      exact ih x hxt hpx fun y hy hpy => huniq y (List.mem_cons_of_mem _ hy) hpy

theorem grid_roundtrip (f : ℕ) (hf : 0 < f) (i : ℕ) :
    gridIndex f ((i : ℚ) / f) = i ∧ onGrid f ((i : ℚ) / f) = true := by
  have hfq : (f : ℚ) ≠ 0 := Nat.cast_ne_zero.mpr hf.ne'
  have hmul : (i : ℚ) / f * f = (i : ℚ) := div_mul_cancel₀ _ hfq
  constructor
  · unfold gridIndex
    rw [hmul, Rat.num_natCast, Int.toNat_natCast]
  · unfold onGrid
    rw [hmul, Rat.den_natCast, Rat.num_natCast]
    simp [Int.natCast_nonneg]

theorem gridRows_length (f : ℕ) (spikes : List ℕ) :
    (gridRows f spikes).length = spikes.length := by
  unfold gridRows
  rw [calculate_iff_length, List.length_map, List.length_range]

theorem gridRows_projTS (f : ℕ) (spikes : List ℕ) :
    (gridRows f spikes).map projTS =
      (List.range spikes.length).map
        fun (i : ℕ) => ((i : ℚ) / f, spikes.getD i 0) := by
  unfold gridRows
  rw [map_projTS_calculate_iff, List.map_map]
  rfl

theorem gridRows_getElem_proj (f : ℕ) (spikes : List ℕ) (i : ℕ)
    (hi : i < spikes.length) :
    ((gridRows f spikes).get
        ⟨i, by rw [gridRows_length]; exact hi⟩).time = (i : ℚ) / f ∧
    ((gridRows f spikes).get
        ⟨i, by rw [gridRows_length]; exact hi⟩).spike = spikes.get ⟨i, hi⟩ := by
  have hL : i < (gridRows f spikes).length := by
    rw [gridRows_length]; exact hi
  have h3 := List.getElem_of_eq (gridRows_projTS f spikes)
    (show i < ((gridRows f spikes).map projTS).length by
      simpa [gridRows_length] using hi)
  rw [List.getElem_map, List.getElem_map, List.getElem_range] at h3
  have htime := congrArg Prod.fst h3
  have hspike := congrArg Prod.snd h3
  simp only [projTS] at htime hspike
  simp only [List.get_eq_getElem]
  refine ⟨htime, ?_⟩
  rw [hspike]
  exact List.getD_eq_getElem spikes 0 hi

/-- C1 (amended). The GapFiller round-trip law, for canonical
full-resolution record sets whose final row is an event: for every
non-empty spike-count list whose last entry is positive and every positive
`original_freq`, applying `fill_samples` to the event-only subset (rows
with Spike > 0, true Times kept) of the canonical record set reproduces
that record set exactly — Time, Spike and IFF columns included. -/
theorem gapfiller_roundtrip (f : ℕ) (spikes : List ℕ) (hf : 0 < f)
    (h : spikes ≠ []) (hlast : 0 < spikes.getLast h) :
    fill_samples ((gridRows f spikes).filter fun r => 0 < r.spike) f =
      some (gridRows f spikes) := by
  have hn1 : 0 < spikes.length := List.length_pos.mpr h
  have hlenr : (gridRows f spikes).length = spikes.length :=
    gridRows_length f spikes
  have hner : gridRows f spikes ≠ [] := by
    apply List.ne_nil_of_length_pos
    rw [hlenr]
    exact hn1
  have hidx : spikes.length - 1 < spikes.length := by omega
  have hrow_time : ∀ i, ∀ hi : i < spikes.length,
      ((gridRows f spikes).get ⟨i, by rw [hlenr]; exact hi⟩).time =
        (i : ℚ) / f :=
    fun i hi => (gridRows_getElem_proj f spikes i hi).1
  have hrow_spike : ∀ i, ∀ hi : i < spikes.length,
      ((gridRows f spikes).get ⟨i, by rw [hlenr]; exact hi⟩).spike =
        spikes.get ⟨i, hi⟩ :=
    fun i hi => (gridRows_getElem_proj f spikes i hi).2
  have hlast_row : (gridRows f spikes).getLast hner =
      (gridRows f spikes).get ⟨spikes.length - 1, by rw [hlenr]; exact hidx⟩ := by
    rw [List.getLast_eq_getElem]
    simp only [List.get_eq_getElem]
    congr 1
    rw [hlenr]
  have hplast : (fun r => decide (0 < r.spike))
      ((gridRows f spikes).getLast hner) = true := by
    rw [hlast_row]
    have hs := hrow_spike (spikes.length - 1) hidx
    simp only [List.get_eq_getElem] at hs
    rw [List.getLast_eq_getElem] at hlast
    simp only [List.get_eq_getElem, hs]
    exact decide_eq_true hlast
  have hevlast := filter_getLast?_of_last (fun r => decide (0 < r.spike))
    (gridRows f spikes) hner hplast
  have hmem : ∀ y ∈ (gridRows f spikes).filter (fun r => decide (0 < r.spike)),
      ∃ j, ∃ hj : j < spikes.length,
        y = (gridRows f spikes).get ⟨j, by rw [hlenr]; exact hj⟩ ∧
          0 < spikes.get ⟨j, hj⟩ := by
    intro y hy
    have hy' := List.mem_filter.mp hy
    obtain ⟨j, hj, hyj⟩ := List.mem_iff_getElem.mp hy'.1
    have hj' : j < spikes.length := by rw [← hlenr]; exact hj
    refine ⟨j, hj', ?_, ?_⟩
    · rw [← hyj]
      simp only [List.get_eq_getElem]
    · have hs := hrow_spike j hj'
      simp only [List.get_eq_getElem] at hs
      have hy2 := of_decide_eq_true hy'.2
      rw [← hyj, hs] at hy2
      exact hy2
  have hall : ((gridRows f spikes).filter (fun r => decide (0 < r.spike))).all
      (fun r => onGrid f r.time) = true := by
    rw [List.all_eq_true]
    intro y hy
    obtain ⟨j, hj, hyj, _⟩ := hmem y hy
    rw [hyj, hrow_time j hj]
    exact (grid_roundtrip f hf j).2
  have hchain_rows :
      List.Chain' (· < ·) ((gridRows f spikes).map Row.time) := by
    rw [List.chain'_iff_get]
    intro i hi
    simp only [List.length_map, hlenr] at hi
    have hi1 : i < spikes.length := by omega
    have hi2 : i + 1 < spikes.length := by omega
    have t1 := hrow_time i hi1
    have t2 := hrow_time (i + 1) hi2
    simp only [List.get_eq_getElem] at t1 t2 ⊢
    simp only [List.getElem_map]
    rw [t1, t2]
    have hfq : (0 : ℚ) < (f : ℚ) := by exact_mod_cast hf
    rw [div_lt_div_right hfq]
    exact_mod_cast Nat.lt_succ_self i
  have hchain : List.Chain' (· < ·)
      (((gridRows f spikes).filter (fun r => decide (0 < r.spike))).map
        Row.time) :=
    hchain_rows.sublist ((List.filter_sublist _).map Row.time)
  have hK : gridIndex f ((gridRows f spikes).getLast hner).time =
      spikes.length - 1 := by
    rw [hlast_row, hrow_time _ hidx]
    exact (grid_roundtrip f hf _).1
  simp only [fill_samples, hevlast]
  rw [if_neg hf.ne', if_pos ⟨hall, hchain⟩, hK,
    show spikes.length - 1 + 1 = spikes.length from by omega]
  refine congrArg some (congrArg calculate_iff (List.map_congr_left ?_))
  intro k hk
  have hk' : k < spikes.length := List.mem_range.mp hk
  have hspk : ((((gridRows f spikes).filter fun r => decide (0 < r.spike)).find?
      (fun r => gridIndex f r.time == k)).map Row.spike).getD 0 =
      spikes.getD k 0 := by
    by_cases hks : 0 < spikes.get ⟨k, hk'⟩
    · have hmemk : (gridRows f spikes).get ⟨k, by rw [hlenr]; exact hk'⟩ ∈
          (gridRows f spikes).filter (fun r => decide (0 < r.spike)) := by
        apply List.mem_filter.mpr
        constructor
        · exact List.get_mem _ _ _
        · rw [hrow_spike k hk']
          exact decide_eq_true hks
      have hpredk : (fun r => gridIndex f r.time == k)
          ((gridRows f spikes).get ⟨k, by rw [hlenr]; exact hk'⟩) = true := by
        simp only [hrow_time k hk', (grid_roundtrip f hf k).1]
        exact beq_self_eq_true k
      have huniq : ∀ y ∈ (gridRows f spikes).filter
          (fun r => decide (0 < r.spike)),
          (fun r => gridIndex f r.time == k) y = true →
            y = (gridRows f spikes).get ⟨k, by rw [hlenr]; exact hk'⟩ := by
        intro y hy hpy
        obtain ⟨j, hj, hyj, _⟩ := hmem y hy
        rw [hyj] at hpy
        simp only [hrow_time j hj, (grid_roundtrip f hf j).1] at hpy
        have hjk : j = k := by exact_mod_cast of_decide_eq_true (by exact_mod_cast hpy)
        subst hjk
        exact hyj
      rw [find?_eq_some_unique _ _ _ hmemk hpredk huniq]
      rw [Option.map_some', Option.getD_some, hrow_spike k hk',
        List.getD_eq_getElem spikes 0 hk']
      simp only [List.get_eq_getElem]
    · have hnone : ((gridRows f spikes).filter
          (fun r => decide (0 < r.spike))).find?
          (fun r => gridIndex f r.time == k) = none := by
        rw [List.find?_eq_none]
        intro y hy hpy
        obtain ⟨j, hj, hyj, hsj⟩ := hmem y hy
        rw [hyj] at hpy
        simp only [hrow_time j hj, (grid_roundtrip f hf j).1] at hpy
        have hjk : j = k := by exact_mod_cast of_decide_eq_true (by exact_mod_cast hpy)
        subst hjk
        exact hks hsj
      rw [hnone, Option.map_none', Option.getD_none,
        List.getD_eq_getElem spikes 0 hk']
      have hz : spikes.get ⟨k, hk'⟩ = 0 := Nat.eq_zero_of_not_pos hks
      simp only [List.get_eq_getElem] at hz
      omega
  rw [hspk]

/-- C1 counterexample to the unrestricted round-trip law: the canonical
2-sample 10 Hz record set with one spike at time 0 and a trailing
spike-free row.  Its event-only subset is the single spike row, and the
GapFiller rebuilds only the 1-row grid up to the last event — the trailing
gap is lost, so the full record set is not reproduced. -/
theorem gapfiller_roundtrip_counterexample :
    (gridRows 10 [1, 0]).length = 2 ∧
    fill_samples ((gridRows 10 [1, 0]).filter fun r => 0 < r.spike) 10 =
      some [⟨0, 1, 0⟩] ∧
    fill_samples ((gridRows 10 [1, 0]).filter fun r => 0 < r.spike) 10 ≠
      some (gridRows 10 [1, 0]) := by
  have h1 : gridRows 10 [1, 0] = [⟨0, 1, 0⟩, ⟨1/10, 0, 0⟩] := by
    norm_num [gridRows, List.range_succ, calculate_iff, iffColumn, iffPass]
  have h2 : (gridRows 10 [1, 0]).filter (fun r => decide (0 < r.spike)) =
      [⟨0, 1, 0⟩] := by
    rw [h1]
    norm_num [List.filter]
  have h3 : fill_samples [(⟨0, 1, 0⟩ : Row)] 10 = some [⟨0, 1, 0⟩] := by
    norm_num [fill_samples, onGrid, gridIndex, calculate_iff, iffColumn,
      iffPass, List.find?, List.range_succ]
  refine ⟨by rw [gridRows_length]; rfl, by rw [h2]; exact h3, ?_⟩
  rw [h2, h3, h1]
  simp

/-- C1 witness for the amended round trip: the test record itself (spikes
at 0.1 s, 0.3 s and 0.5 s; its event subset is rows 1, 3 and 5). -/
theorem gapfiller_roundtrip_witness :
    fill_samples ((gridRows 10 [0, 1, 0, 1, 0, 1]).filter
      fun r => 0 < r.spike) 10 = some (gridRows 10 [0, 1, 0, 1, 0, 1]) :=
  gapfiller_roundtrip 10 [0, 1, 0, 1, 0, 1] (by norm_num)
    (by simp) (by norm_num)

end DN
